import Mathlib

/-!
Verification of the NLTK YCOE / treebank corpus readers
(`nltk/corpus/reader/ycoe.py`, `nltk/corpus/treebank.py`).

The central object is the per-sentence loop of `_chunk_parse`
(ycoe.py, lines 347-400): a single-pass, stack-based scanner that turns a
whitespace-tokenized bracket sentence into a chunk tree, driven by the policy
flags `chunk_types`, `partial_match`, `collapse_partials` and `cascade`.

The embedding below mirrors the Python statement by statement:
* Python `tree.Tree(label, children)` values are `Frame` (for stack entries)
  and `Entry.node` (for trees stored inside another tree's child list);
  leaf tuples `(itmType, text)` are `Entry.leaf`.
* The Python stack `stack` has its top at the end (`stack[-1]`); here the
  stack is a `List Frame` with the top at the HEAD, so Python `stack[-1]`
  is the head, `stack[-2]` the second element, `stack.append` is cons and
  `stack = stack[:-1]` is tail.
* Likewise Python `inTag[-1]` is the head of `inTag : List Int`,
  `inTag += [bracket]` is cons, and `inTag = [] + inTag[:-2]` drops the
  first two elements.
* Python runtime exceptions (IndexError on `itm[0]` / `itm[-1]` /
  `stack[-1][-1]`, TypeError on iterating `None`, AttributeError on
  `tuple.append`) are modelled with `Except PyErr`.
* Machine integers: `bracket` is an `Int` (Python ints; the counter can go
  negative on unbalanced input and the code never guards it).
-/

set_option linter.unusedVariables false

/-- A child of a Python `tree.Tree` in `_chunk_parse`: either a leaf tuple
`(itmType, text)` (where `itmType` starts out as Python `None`) or a nested
`Tree`. -/
inductive Entry where
  | leaf (tag : Option String) (tok : String) : Entry
  | node (label : String) (children : List Entry) : Entry

/-- A `tree.Tree` held directly on the builder's stack: a label and an ordered
child list (children are appended at the right end, as `list.append` does). -/
structure Frame where
  label : String
  children : List Entry

/-- View a stack frame as a tree entry (used when `stack[-2].append(stack[-1])`
re-parents the popped frame). -/
def Frame.toEntry (f : Frame) : Entry := .node f.label f.children

/-- The Python exceptions the reference loop can actually raise. -/
inductive PyErr where
  | indexError | typeError | attributeError
deriving DecidableEq

/-- The chunk policy: the five keyword arguments of `_chunk_parse`.
`chunk_types` is a tuple of strings or Python `None`. -/
structure ChunkPolicy where
  chunk_types : Option (List String)
  top_node : String
  partial_match : Bool
  collapse_partials : Bool
  cascade : Bool

/-- The loop state for one sentence: `bracket`, `itmType`, `stack`, `inTag`
exactly as initialised at ycoe.py lines 348-351. -/
structure BState where
  bracket : Int
  itmType : Option String
  stack : List Frame
  inTag : List Int

/-- Membership in the regex class `[\(\[\{<]` (L_BRACKET, line 339). -/
def isLBracketChar (c : Char) : Bool :=
  c == '(' || c == '[' || c == '{' || c == '<'

/-- Membership in the regex class `[\)\]\}>]` (R_BRACKET, line 340). -/
def isRBracketChar (c : Char) : Bool :=
  c == ')' || c == ']' || c == '}' || c == '>'

/-- Python `itm[0]` (the caller checks nonemptiness; the default is dead). -/
def strFront (s : String) : Char := s.data.headD 'A'

/-- Python `itm[-1]` (the caller checks nonemptiness; the default is dead). -/
def strBack (s : String) : Char := s.data.getLastD 'A'

/-- Python `itm[1:]`. -/
def strDropOne (s : String) : String := String.mk s.data.tail

/-- Python `str.split(sep)` for a one-character separator `sep` (the reference
always splits on the single character `itm[-1]`): `'a)b))'.split(')') =
['a', 'b', '', '']`. -/
def splitOnChar (sep : Char) : List Char → List (List Char)
  | [] => [[]]
  | c :: rest =>
    if c == sep then [] :: splitOnChar sep rest
    else
      match splitOnChar sep rest with
      | s :: ss => (c :: s) :: ss
      | [] => [[c]]

/-- The `for eachItm in chunk_types` loop of the partial-match branch
(ycoe.py lines 358-363).  The Python loop has no `break`: after a match it
keeps scanning, and under `collapse_partials` later entries are compared
against the already-collapsed `itm`. -/
def partialScan (collapse_partials : Bool) :
    List String → String → Bool → String × Bool
  | [], itm, matched => (itm, matched)
  | eachItm :: rest, itm, matched =>
    if eachItm.data.length ≤ itm.data.length ∧
        eachItm.data = itm.data.take eachItm.data.length then
      partialScan collapse_partials rest
        (if collapse_partials then eachItm else itm) true
    else
      partialScan collapse_partials rest itm matched

/-- The chunk-matching block (ycoe.py lines 356-367): returns the (possibly
collapsed) label and the `matched` flag.  With `partial_match` and
`chunk_types is None`, Python raises `TypeError` iterating over `None`.
Exact mode is `chunk_types is not None and itm in chunk_types`. -/
def matchChunk (pol : ChunkPolicy) (itm : String) : Except PyErr (String × Bool) :=
  if pol.partial_match then
    match pol.chunk_types with
    | none => .error .typeError
    | some cts => .ok (partialScan pol.collapse_partials cts itm false)
  else
    match pol.chunk_types with
    | some cts => .ok (itm, cts.any (fun eachItm => eachItm.data == itm.data))
    | none => .ok (itm, false)

/-- Python `stack[-1].append(e)`; `IndexError` on an empty stack. -/
def pushChild (st : BState) (e : Entry) : Except PyErr BState :=
  match st.stack with
  | [] => .error .indexError
  | top :: rest =>
    .ok { st with stack := ⟨top.label, top.children ++ [e]⟩ :: rest }

/-- Python `stack[-1][-1].append(e)` (the non-cascade leaf attach, line 385):
`IndexError` if the top frame has no children, `AttributeError` if its last
child is a leaf tuple (tuples have no `append`). -/
def pushChildOfLast (st : BState) (e : Entry) : Except PyErr BState :=
  match st.stack with
  | [] => .error .indexError
  | top :: rest =>
    match top.children.getLast? with
    | none => .error .indexError
    | some (Entry.leaf _ _) => .error .attributeError
    | some (Entry.node l cs) =>
      .ok { st with
        stack := ⟨top.label, top.children.dropLast ++ [Entry.node l (cs ++ [e])]⟩ :: rest }

/-- Python `if len(stack) > 1: stack[-2].append(stack[-1]); stack = stack[:-1]`
(the cascading pop, lines 388-390 and 396-398). -/
def popReparent : List Frame → List Frame
  | top :: next :: rest => ⟨next.label, next.children ++ [top.toEntry]⟩ :: rest
  | stack => stack

/-- The post-decrement popping loop (ycoe.py lines 394-399):
`while len(inTag) > 0 and bracket < inTag[-1]` pops one frame (when cascading
and the stack allows it) but drops the last TWO depth markers
(`inTag = [] + inTag[:-2]`).  In this head-at-top representation,
`inTag[:-2]` is dropping two elements from the front. -/
def popLoop (cascade : Bool) (bracket : Int) :
    List Frame → List Int → List Frame × List Int
  | stack, [] => (stack, [])
  | stack, [d] =>
    if bracket < d then
      ((if cascade then popReparent stack else stack), [])
    else (stack, [d])
  | stack, d :: d2 :: rest =>
    if bracket < d then
      popLoop cascade bracket (if cascade then popReparent stack else stack) rest
    else (stack, d :: d2 :: rest)

/-- The else-branch of the leaf attach (ycoe.py lines 386-392): when cascading,
pop one frame first; append the leaf to the (new) top frame; then
`inTag = [] + inTag[:-2]`. -/
def elseAttach (pol : ChunkPolicy) (st : BState) (tok : String) : Except PyErr BState :=
  let st1 := if pol.cascade then { st with stack := popReparent st.stack } else st
  match pushChild st1 (Entry.leaf st1.itmType tok) with
  | .error e => .error e
  | .ok st2 => .ok { st2 with inTag := st2.inTag.drop 2 }

/-- Python `tmpItm[0]` of `tmpItm = split(itm, itm[-1])`. -/
def tokOf (itm : String) : String :=
  String.mk ((splitOnChar (strBack itm) itm.data).headD [])

/-- The leaf-attach stage of the closing-bracket branch (ycoe.py lines
379-392).  The guard `if tmpItm != ""` compares a list with a string and is
always true in Python, so it is omitted; the leaf text is `tmpItm[0]`
(`tokOf itm`).  `len(inTag) > 0 and inTag[-1] <= bracket` selects the attach
into the open chunk (top frame when cascading, the top frame's LAST CHILD
otherwise); anything else goes through the else-branch. -/
def leafAttach (pol : ChunkPolicy) (st : BState) (itm : String) : Except PyErr BState :=
  match st.inTag with
  | d :: _ =>
    if d ≤ st.bracket then
      if pol.cascade then pushChild st (Entry.leaf st.itmType (tokOf itm))
      else pushChildOfLast st (Entry.leaf st.itmType (tokOf itm))
    else elseAttach pol st (tokOf itm)
  | [] => elseAttach pol st (tokOf itm)

/-- The closing-bracket branch (ycoe.py lines 378-399): attach the leaf, then
`bracket -= (len(tmpItm)-1)` subtracts the number of separator occurrences,
then the popping loop runs on the updated depth. -/
def closeBracketStep (pol : ChunkPolicy) (st : BState) (itm : String) : Except PyErr BState :=
  let tmpItm := splitOnChar (strBack itm) itm.data
  match leafAttach pol st itm with
  | .error e => .error e
  | .ok st1 =>
    let bracket := st1.bracket - ((tmpItm.length : Int) - 1)
    let pr := popLoop pol.cascade bracket st1.stack st1.inTag
    .ok { st1 with bracket := bracket, stack := pr.1, inTag := pr.2 }

/-- The opening-bracket branch (ycoe.py lines 353-376), up to but not
including the `itmType = itm` assignment: increments `bracket`, strips the
bracket, runs the match block, and pushes/appends a fresh chunk frame
according to `cascade` and `len(inTag) == 0`.  Returns the new state and the
(possibly collapsed) `itm`. -/
def openBracketStep (pol : ChunkPolicy) (st : BState) (itm : String) :
    Except PyErr (BState × String) :=
  let bracket := st.bracket + 1
  match matchChunk pol itm with
  | .error e => .error e
  | .ok (itm, matched) =>
    if matched then
      if pol.cascade then
        .ok ({ st with
               bracket := bracket
               stack := ⟨itm, []⟩ :: st.stack
               inTag := bracket :: st.inTag }, itm)
      else if st.inTag.length = 0 then
        match st.stack with
        | [] => .error .indexError
        | top :: rest =>
          .ok ({ st with
                 bracket := bracket
                 stack := ⟨top.label, top.children ++ [Entry.node itm []]⟩ :: rest
                 inTag := bracket :: st.inTag }, itm)
      else .ok ({ st with bracket := bracket }, itm)
    else .ok ({ st with bracket := bracket }, itm)

/-- The `if L_BRACKET.match(itm[0])` part of one loop iteration
(ycoe.py lines 353-377), including the final `itmType = itm` assignment;
returns the state and the current `itm` (stripped and possibly collapsed when
the branch fired, the original token otherwise). -/
def openPhase (pol : ChunkPolicy) (st : BState) (itm0 : String) :
    Except PyErr (BState × String) :=
  if isLBracketChar (strFront itm0) then
    Except.map (fun p => ({ p.1 with itmType := some p.2 }, p.2))
      (openBracketStep pol st (strDropOne itm0))
  else .ok (st, itm0)

/-- The `if R_BRACKET.match(itm[-1])` part of one loop iteration
(ycoe.py lines 378-399), applied to the `itm` the opening phase left behind;
`itm[-1]` on an empty string raises IndexError. -/
def closePhase (pol : ChunkPolicy) (st : BState) (itm : String) : Except PyErr BState :=
  if itm.data = [] then .error .indexError
  else if isRBracketChar (strBack itm) then closeBracketStep pol st itm
  else .ok st

/-- One iteration of `for itm in list(tokenize.whitespace(s))`
(ycoe.py lines 352-399).  An empty token would make `itm[0]` raise
IndexError (whitespace tokenization never yields one); after the opening
branch `itmType = itm` is assigned, and the closing branch tests the
MODIFIED `itm` (stripped of its leading bracket and possibly collapsed). -/
def processToken (pol : ChunkPolicy) (st : BState) (itm0 : String) : Except PyErr BState :=
  if itm0.data = [] then .error .indexError
  else
    match openPhase pol st itm0 with
    | .error e => .error e
    | .ok (st, itm) => closePhase pol st itm

/-- The state at ycoe.py lines 348-351: `bracket = 0`, `itmType = None`,
`stack = [tree.Tree(top_node, [])]`, `inTag = []`. -/
def initState (top_node : String) : BState :=
  { bracket := 0, itmType := none, stack := [⟨top_node, []⟩], inTag := [] }

/-- The whole per-sentence loop of `_chunk_parse`: fold `processToken` over
the sentence's whitespace tokens starting from `initState`; the sentence's
yielded value is the final `stack` (a list of trees, root first in Python
order, i.e. the REVERSE of our head-at-top list). -/
def runTokens (pol : ChunkPolicy) (toks : List String) : Except PyErr BState :=
  toks.foldlM (processToken pol) (initState pol.top_node)

/-- The value `yield stack` produces for one sentence, in Python list order
(index 0 = the `top_node` root frame). -/
def chunkSentence (pol : ChunkPolicy) (toks : List String) : Except PyErr (List Frame) :=
  Except.map (fun st => st.stack.reverse) (runTokens pol toks)

/-! ## Observers on builder output -/

mutual
/-- The leaves of a tree entry, depth-first and left-to-right. -/
def Entry.leaves : Entry → List (Option String × String)
  | .leaf tag tok => [(tag, tok)]
  | .node _ cs => leavesList cs
/-- The leaves of a child list, in order. -/
def leavesList : List Entry → List (Option String × String)
  | [] => []
  | e :: es => Entry.leaves e ++ leavesList es
end

/-- The leaves of one stack frame. -/
def Frame.leaves (f : Frame) : List (Option String × String) := leavesList f.children

/-- All leaves stored anywhere in the stack, in Python order: the bottom
(root) frame's leaves first, the top frame's last.  Since every append in the
reference goes to the end of some frame's (or its last child's) child list,
this sequence only ever grows at the right end. -/
def stackLeaves : List Frame → List (Option String × String)
  | [] => []
  | f :: rest => stackLeaves rest ++ Frame.leaves f

/-- All leaves of a builder state. -/
def BState.allLeaves (st : BState) : List (Option String × String) :=
  stackLeaves st.stack

/-- The label of the bottom (root) frame of the stack — Python `stack[0]`. -/
def bottomLabel : List Frame → Option String
  | [] => none
  | [f] => some f.label
  | _ :: rest => bottomLabel rest

/-- Is this entry a leaf tuple? -/
def Entry.isLeaf : Entry → Bool
  | .leaf _ _ => true
  | .node _ _ => false

/-- Every child of every frame is a flat leaf (no chunk node anywhere). -/
def framesLeafOnly (fs : List Frame) : Prop :=
  ∀ f ∈ fs, ∀ e ∈ f.children, Entry.isLeaf e = true

/-- Projection: number of frames in the yielded stack, `none` on exception. -/
def stackLength (r : Except PyErr BState) : Option Nat :=
  match r with
  | .ok st => some st.stack.length
  | .error _ => none

/-- Projection: number of depth markers left in `inTag`, `none` on exception. -/
def markerCount (r : Except PyErr BState) : Option Nat :=
  match r with
  | .ok st => some st.inTag.length
  | .error _ => none

/-- Projection: the flattened leaf sequence of the whole stack. -/
def outLeaves (r : Except PyErr BState) : Option (List (Option String × String)) :=
  match r with
  | .ok st => some st.allLeaves
  | .error _ => none

/-- The label of a node entry (`none` for a leaf tuple). -/
def Entry.nodeLabel? : Entry → Option String
  | .node l _ => some l
  | .leaf _ _ => none

/-- Projection: labels of the chunk nodes sitting directly under the root
frame (the bottom of the stack), in order. -/
def rootChildNodeLabels (r : Except PyErr BState) : Option (List String) :=
  match r with
  | .ok st =>
    match st.stack.getLast? with
    | some f => some (f.children.filterMap Entry.nodeLabel?)
    | none => none
  | .error _ => none

/-- Projection: did the run complete without raising? -/
def isOkRun (r : Except PyErr BState) : Bool :=
  match r with
  | .ok _ => true
  | .error _ => false

/-! ## Spec-side definitions

These definitions follow the SPEC's words (not the code) and are only used
to state refinement-style theorems comparing the code's behaviour with the
spec's description. -/

/-- Spec-side prefix test: `e` is a prefix of `s` (character by character). -/
def startsWith : List Char → List Char → Bool
  | [], _ => true
  | _ :: _, [] => false
  | a :: e, b :: s => a == b && startsWith e s

/-- Spec-side description of what the collapsing scan actually computes: fold
over `chunk_types` in order, replacing the current label by every entry that
is a prefix of the CURRENT (possibly already replaced) label. -/
def specCollapseLabel (cts : List String) (itm : String) : String :=
  cts.foldl (fun cur e => if startsWith e.data cur.data then e else cur) itm

/-- The effective label an opening bracket ends up with after the match block:
unchanged in exact mode, the collapsed label in partial mode (when
`chunk_types` is `None` in partial mode the reference raises before using
it). -/
def effectiveOpenLabel (pol : ChunkPolicy) (itm : String) : String :=
  if pol.partial_match then
    match pol.chunk_types with
    | none => itm
    | some cts => (partialScan pol.collapse_partials cts itm false).1
  else itm

/-- Per-token description of the leaf text a token contributes: a token ending
(after bracket stripping and collapse renaming) in a closing delimiter
contributes the text before the first occurrence of that delimiter; any other
token contributes nothing.  This is a LOCAL function of the token and policy;
the theorem `chunked_leaves_in_input_order` shows the stateful builder's
flattened leaf sequence is exactly these contributions in input order. -/
def leafText (pol : ChunkPolicy) (t : String) : Option String :=
  if t.data = [] then none
  else
    let itm := if isLBracketChar (strFront t) then
                 effectiveOpenLabel pol (strDropOne t)
               else t
    if itm.data = [] then none
    else if isRBracketChar (strBack itm) then some (tokOf itm)
    else none

/-- Well-formed whitespace tokens: nonempty, and a token that opens a bracket
has at least one character after it (both hold for every token the YCOE
tokenizer can produce that the reference survives). -/
def wfTokens (toks : List String) : Prop :=
  ∀ t ∈ toks, t.data ≠ [] ∧ (isLBracketChar (strFront t) = true → 2 ≤ t.data.length)

/-! ## `YCOEParseCorpusReader._parse` (ycoe.py lines 115-120)

The method computes `s = re.sub(r'(?u)\((CODE|ID)[^\)]*\)', '', t)` and then
returns `BracketParseCorpusReader._parse(t)` — passing the ORIGINAL `t`, not
the stripped `s`.  We model the substitution and the text handed onward. -/

/-- One pass of `re.sub(r'\((CODE|ID)[^\)]*\)', '', ...)` over the character
list.  The Boolean is "currently consuming a matched annotation node up to
its first `)`"; a match starts at `(` immediately followed by `CODE` or `ID`
provided a `)` occurs later (otherwise the regex fails at this position and
scanning resumes at the next character). -/
def stripGo : Bool → List Char → List Char
  | true, [] => []
  | true, ')' :: rest => stripGo false rest
  | true, _ :: rest => stripGo true rest
  | false, [] => []
  | false, c :: rest =>
    if c == '(' ∧ (startsWith "CODE".data rest ∨ startsWith "ID".data rest) ∧
        rest.contains ')' then
      stripGo true rest
    else c :: stripGo false rest

/-- The value of `s` in `YCOEParseCorpusReader._parse`. -/
def reSubCodeId (t : String) : String := String.mk (stripGo false t.data)

/-- The text `YCOEParseCorpusReader._parse` actually hands to
`BracketParseCorpusReader._parse`: the method body binds
`s = re.sub(..., t)` and then calls the base parser on `t` itself. -/
def ycoeParseHandoff (t : String) : String :=
  let s := reSubCodeId t
  t

/-! ## Format dispatch (`read_document` in ycoe.py lines 270-288 and
treebank.py lines 86-106) -/

/-- Which reading path a `read_document` call takes (a format error models
`raise ValueError(...)`). -/
inductive ReadOutcome where
  | raw | tokenized | tagged | chunked | parsed | parsedNoPos | formatError
deriving DecidableEq

/-- The format dispatch of `ycoe.read_document` (the `isinstance(item, list)`
concatenation path happens before this and does not involve `format`). -/
def ycoe_read_document (format : String) : ReadOutcome :=
  if format = "raw" then .raw
  else if format = "tokenized" then .tokenized
  else if format = "tagged" then .tagged
  else if format = "chunked" then .chunked
  else if format = "parsed" then .parsed
  else .formatError

/-- The format dispatch of `treebank.read_document`. -/
def treebank_read_document (format : String) : ReadOutcome :=
  if format = "parsed" then .parsed
  else if format = "parsed-no-pos" then .parsedNoPos
  else if format = "chunked" then .chunked
  else if format = "tagged" then .tagged
  else if format = "tokenized" then .tokenized
  else if format = "raw" then .raw
  else .formatError

/-- The closed format set the spec describes. -/
def specFormatSet : List String :=
  ["raw", "tokenized", "tagged", "chunked", "parsed", "parsed-no-pos"]

/-! ## Invariant predicates -/

/-- The structural stack invariant the builder maintains for every policy:
the stack is never empty (no underflow), its bottom frame keeps the
`top_node` label, with `cascade` off the stack never grows beyond the single
root frame, and with `cascade` on the depth markers always UNDERCOUNT the
open chunk frames (at most one marker per frame above the root — the popping
loop drops two markers per popped frame, so equality fails). -/
def StackInv (pol : ChunkPolicy) (st : BState) : Prop :=
  st.stack ≠ [] ∧
  bottomLabel st.stack = some pol.top_node ∧
  (pol.cascade = false → st.stack.length = 1) ∧
  (pol.cascade = true → st.inTag.length + 1 ≤ st.stack.length)

/-- Invariant for `chunk_types is None` with exact matching: nothing ever
matches, so the stack stays the single root frame with only leaf children
and no depth marker is ever recorded. -/
def NoChunkInv (pol : ChunkPolicy) (st : BState) : Prop :=
  (∃ cs, st.stack = [⟨pol.top_node, cs⟩] ∧ ∀ e ∈ cs, Entry.isLeaf e = true) ∧
  st.inTag = []

/-! ## Small inversion lemmas -/

theorem exceptMap_ok {α β : Type} (f : α → β) (x : Except PyErr α) (b : β)
    (h : Except.map f x = .ok b) : ∃ a, x = .ok a ∧ f a = b := by
  cases x with
  | error e => simp [Except.map] at h
  | ok a => exact ⟨a, rfl, by simpa [Except.map] using h⟩

theorem foldlM_except_cons {σ α : Type} (f : σ → α → Except PyErr σ) (b : σ)
    (a : α) (l : List α) :
    List.foldlM f b (a :: l) =
      match f b a with
      | .error e => .error e
      | .ok b' => List.foldlM f b' l := by
  cases h : f b a with
  | error e => rw [List.foldlM_cons, h]; rfl
  | ok b' => rw [List.foldlM_cons, h]; rfl

theorem foldlM_except_ok_cons {σ α : Type} (f : σ → α → Except PyErr σ) (b c : σ)
    (a : α) (l : List α) (h : List.foldlM f b (a :: l) = .ok c) :
    ∃ b', f b a = .ok b' ∧ List.foldlM f b' l = .ok c := by
  rw [foldlM_except_cons] at h
  cases hfa : f b a with
  | error e => rw [hfa] at h; exact absurd h (by simp)
  | ok b' => exact ⟨b', rfl, by rwa [hfa] at h⟩

/-! ## Counterexamples and concrete evaluations -/

/-- C1 counterexample.  The claim says the per-sentence loop yields exactly
one root tree for every balanced-bracket sentence and policy.  For the
balanced sentence `(A (B w))` (tokens `(A`, `(B`, `w))`) with
`chunk_types=('A','B')`, exact matching and `cascade=True`, the loop yields a
stack of TWO frames: the popping loop dropped both depth markers while
re-parenting only the inner chunk frame, so the outer chunk frame `A` is
never re-parented under the root, and the root `S` frame ends with no
children at all. -/
theorem chunk_stack_single_root_cex :
    stackLength (runTokens ⟨some ["A", "B"], "S", false, true, true⟩
      ["(A", "(B", "w))"]) = some 2 ∧
    rootChildNodeLabels (runTokens ⟨some ["A", "B"], "S", false, true, true⟩
      ["(A", "(B", "w))"]) = some [] := by
  exact ⟨by decide, by decide⟩

/-- C2 counterexample.  The claim says `inTag` holds exactly one marker per
currently-open chunk frame and that the popping loop removes exactly one
marker per closed frame.  On the balanced sentence `(X (Y w))` with
`cascade=True`, after the single closing token the loop has popped ONE frame
but removed BOTH markers (`inTag = [] + inTag[:-2]`), leaving two frames
(one open chunk frame above the root) and zero markers. -/
theorem depth_marker_pairing_cex :
    stackLength (runTokens ⟨some ["X", "Y"], "S", false, true, true⟩
      ["(X", "(Y", "w))"]) = some 2 ∧
    markerCount (runTokens ⟨some ["X", "Y"], "S", false, true, true⟩
      ["(X", "(Y", "w))"]) = some 0 := by
  exact ⟨by decide, by decide⟩

/-- C3 counterexample.  The claim says every leaf's tag is the label of the
nearest enclosing bracket AS WRITTEN, independent of collapsing.  With
`partial_match` and `collapse_partials`, the bracket written `(NP-SBJ`
produces the leaf `('NP', 'dog')`: the register was collapsed to the chunk
type `NP` before the leaf was attached. -/
theorem leaf_tag_as_written_cex :
    outLeaves (runTokens ⟨some ["NP"], "S", true, true, false⟩
      ["(NP-SBJ", "dog)"]) = some [(some "NP", "dog")] ∧
    ("NP" : String) ≠ "NP-SBJ" := by
  exact ⟨by decide, by decide⟩

/-- C4 counterexample.  The claim says that with `chunk_types = None` every
bracket matches and the whole sentence becomes one fully chunked tree.  In
the code, exact mode tests `chunk_types is not None and itm in chunk_types`,
so with `None` NOTHING matches: `(NP dog)` yields a root with a bare leaf
and no chunk node.  With `partial_match = True` the code iterates over
`None` and raises `TypeError` instead. -/
theorem chunk_types_none_matches_all_cex :
    rootChildNodeLabels (runTokens ⟨none, "S", false, true, false⟩
      ["(NP", "dog)"]) = some [] ∧
    outLeaves (runTokens ⟨none, "S", false, true, false⟩
      ["(NP", "dog)"]) = some [(some "NP", "dog")] ∧
    runTokens ⟨none, "S", true, true, false⟩ ["(NP", "dog)"] = .error .typeError := by
  exact ⟨by decide, by decide, rfl⟩

/-- C5 counterexample.  The claim says partial matching uses the FIRST
matching entry of `chunk_types`, so with `chunk_types=('NP','N')` the
bracket `(NP-SBJ` should become a frame labeled `NP`.  The loop has no
`break`: after collapsing to `NP` it keeps scanning, `N` is a prefix of the
collapsed label, and the frame ends up labeled `N`. -/
theorem partial_first_match_cex :
    rootChildNodeLabels (runTokens ⟨some ["NP", "N"], "S", true, true, false⟩
      ["(NP-SBJ", "dog)"]) = some ["N"] ∧
    ("N" : String) ≠ "NP" := by
  exact ⟨by decide, by decide⟩

/-- C6 counterexample.  The claim says flattening the output's leaves
reproduces the input's `(tag, token)` terminal sequence for any policy.  In
the sentence `(NP dog cat)` (tokens `(NP`, `dog`, `cat)`) the bare token
`dog` carries no bracket on either side, so the loop body ignores it
entirely: the flattened output is `[('NP','cat')]`, not
`[('NP','dog'), ('NP','cat')]`. -/
theorem leaves_roundtrip_cex :
    outLeaves (runTokens ⟨some ["NP"], "S", false, true, false⟩
      ["(NP", "dog", "cat)"]) = some [(some "NP", "cat")] ∧
    some [((some "NP" : Option String), ("cat" : String))] ≠
      some [(some "NP", "dog"), (some "NP", "cat")] := by
  exact ⟨by decide, by decide⟩

/-- C7 counterexample.  The claim says the builder raises a policy error
exactly when `chunk_types` is provided but empty while `partial_match` is
requested.  The code contains no policy validation at all: with
`chunk_types=()` and `partial_match=True` the match loop simply never fires
and the sentence completes without any exception. -/
theorem policy_error_cex :
    isOkRun (runTokens ⟨some [], "S", true, true, false⟩ ["(NP", "dog)"]) = true := by
  decide

/-- C8 evaluation at the failing input.  `YCOEParseCorpusReader._parse`
(ycoe.py lines 118-120) computes the stripped string
`s = re.sub(r'(?u)\((CODE|ID)[^\)]*\)', '', t)` — which on this input is
`' (NP dog)'` — but then hands the ORIGINAL `t`, still containing the
`(CODE x)` annotation node, to `BracketParseCorpusReader._parse`,
contradicting the class's own docstring ("strips out (CODE ...) and
(ID ...) nodes"). -/
theorem ycoe_parse_handoff_keeps_code_nodes :
    ycoeParseHandoff "(CODE x) (NP dog)" = "(CODE x) (NP dog)" ∧
    reSubCodeId "(CODE x) (NP dog)" = " (NP dog)" := by
  exact ⟨rfl, by decide⟩

/-- C9 counterexample.  The claim says both document readers accept every
member of the closed set `{raw, tokenized, tagged, chunked, parsed,
parsed-no-pos}` without a format error.  `ycoe.read_document` has no
`parsed-no-pos` branch and falls through to `raise ValueError()`. -/
theorem ycoe_format_set_cex :
    ycoe_read_document "parsed-no-pos" = .formatError ∧
    "parsed-no-pos" ∈ specFormatSet := by
  exact ⟨by decide, by decide⟩

/-! ## C5: what the partial-match scan computes -/

theorem startsWith_iff : ∀ (e s : List Char),
    startsWith e s = true ↔ (e.length ≤ s.length ∧ e = s.take e.length) := by
  intro e
  induction e with
  | nil => intro s; simp [startsWith]
  | cons a e ih =>
    intro s
    cases s with
    | nil => simp [startsWith]
    | cons b s =>
      simp [startsWith, ih s, List.take_succ_cons, Nat.succ_le_succ_iff]
      tauto

theorem partialScan_collapse_spec : ∀ (cts : List String) (itm : String) (m : Bool),
    partialScan true cts itm m =
      (specCollapseLabel cts itm, m || cts.any (fun e => startsWith e.data itm.data)) := by
  intro cts
  induction cts with
  | nil => intro itm m; simp [partialScan, specCollapseLabel]
  | cons e rest ih =>
    intro itm m
    by_cases hc : e.data.length ≤ itm.data.length ∧ e.data = itm.data.take e.data.length
    · have hsw : startsWith e.data itm.data = true := (startsWith_iff _ _).mpr hc
      have hL : partialScan true (e :: rest) itm m = partialScan true rest e true := by
        simp only [partialScan]
        rw [if_pos hc]
        simp
      have hspec : specCollapseLabel (e :: rest) itm = specCollapseLabel rest e := by
        simp only [specCollapseLabel, List.foldl_cons, hsw, if_true]
      rw [hL, ih e true, hspec]
      simp [List.any_cons, hsw]
    · have hsw : startsWith e.data itm.data = false := by
        cases h2 : startsWith e.data itm.data with
        | false => rfl
        | true => exact absurd ((startsWith_iff _ _).mp h2) hc
      have hL : partialScan true (e :: rest) itm m = partialScan true rest itm m := by
        simp only [partialScan]
        rw [if_neg hc]
      have hspec : specCollapseLabel (e :: rest) itm = specCollapseLabel rest itm := by
        simp only [specCollapseLabel, List.foldl_cons]
        rw [hsw]
        simp
      rw [hL, ih itm m, hspec]
      simp [List.any_cons, hsw]

/-- C5 amended.  The partial-match scan does NOT stop at the first matching
chunk type: with `collapse_partials` the resulting frame label is the FOLD of
`chunk_types` in order, replacing the current label by every entry that is a
prefix of the current (already collapsed) label — so a later, shorter entry
overrides an earlier match.  The `matched` flag is set iff some entry is a
prefix of the original label. -/
theorem partial_collapse_foldl (cts : List String) (itm : String) :
    partialScan true cts itm false =
      (specCollapseLabel cts itm, cts.any (fun e => startsWith e.data itm.data)) := by
  simpa using partialScan_collapse_spec cts itm false

/-- C9 amended.  `treebank.read_document` accepts exactly the six formats of
the spec's closed set; `ycoe.read_document` accepts only five of them — it
has no `parsed-no-pos` branch, and any other string (including
`parsed-no-pos`) falls through to `raise ValueError()`. -/
theorem format_dispatch_characterization (format : String) :
    (ycoe_read_document format = .formatError ↔
      format ∉ (["raw", "tokenized", "tagged", "chunked", "parsed"] : List String)) ∧
    (treebank_read_document format = .formatError ↔ format ∉ specFormatSet) := by
  constructor
  · unfold ycoe_read_document
    split_ifs <;> simp_all
  · unfold treebank_read_document specFormatSet
    split_ifs <;> simp_all

/-! ## Leaf-sequence and stack-shape lemmas -/

theorem leavesList_append : ∀ (xs ys : List Entry),
    leavesList (xs ++ ys) = leavesList xs ++ leavesList ys := by
  intro xs ys
  induction xs with
  | nil => simp [leavesList]
  | cons e es ih => simp [leavesList, ih]

theorem bottomLabel_cons_cons (f g : Frame) (rest : List Frame) :
    bottomLabel (f :: g :: rest) = bottomLabel (g :: rest) := by
  simp [bottomLabel]

theorem bottomLabel_headSwap (f g : Frame) (rest : List Frame)
    (h : f.label = g.label) :
    bottomLabel (f :: rest) = bottomLabel (g :: rest) := by
  cases rest with
  | nil => simp [bottomLabel, h]
  | cons r rs => simp [bottomLabel_cons_cons]

theorem stackLeaves_headAppend (top : Frame) (rest : List Frame) (es : List Entry) :
    stackLeaves (⟨top.label, top.children ++ es⟩ :: rest) =
      stackLeaves (top :: rest) ++ leavesList es := by
  simp [stackLeaves, Frame.leaves, leavesList_append, List.append_assoc]

theorem popReparent_ne_nil (s : List Frame) (h : s ≠ []) : popReparent s ≠ [] := by
  cases s with
  | nil => exact absurd rfl h
  | cons f rest => cases rest <;> simp [popReparent]

theorem popReparent_length (s : List Frame) :
    (popReparent s).length = if 2 ≤ s.length then s.length - 1 else s.length := by
  cases s with
  | nil => simp [popReparent]
  | cons f rest =>
    cases rest with
    | nil => simp [popReparent]
    | cons g rs => simp [popReparent]

theorem popReparent_bottomLabel (s : List Frame) :
    bottomLabel (popReparent s) = bottomLabel s := by
  cases s with
  | nil => simp [popReparent]
  | cons f rest =>
    cases rest with
    | nil => simp [popReparent]
    | cons g rs =>
      show bottomLabel (⟨g.label, g.children ++ [f.toEntry]⟩ :: rs) = _
      rw [bottomLabel_headSwap ⟨g.label, g.children ++ [f.toEntry]⟩ g rs rfl,
        bottomLabel_cons_cons]

theorem popReparent_stackLeaves (s : List Frame) :
    stackLeaves (popReparent s) = stackLeaves s := by
  cases s with
  | nil => simp [popReparent]
  | cons f rest =>
    cases rest with
    | nil => simp [popReparent]
    | cons g rs =>
      show stackLeaves (⟨g.label, g.children ++ [f.toEntry]⟩ :: rs) = _
      rw [stackLeaves_headAppend g rs [f.toEntry]]
      simp [stackLeaves, leavesList, Frame.toEntry, Entry.leaves, Frame.leaves,
        List.append_assoc]

/-- Generic invariant-propagation through the popping loop: any property of
the (stack, markers) pair that survives one iteration (a conditional
`popReparent` plus dropping two markers) survives the whole loop. -/
theorem popLoop_inv (c : Bool) (b : Int) (P : List Frame → List Int → Prop)
    (hstep : ∀ s d rest, P s (d :: rest) → b < d →
      P (if c then popReparent s else s) rest.tail) :
    ∀ (n : Nat) (m : List Int) (s : List Frame), m.length ≤ n → P s m →
      P (popLoop c b s m).1 (popLoop c b s m).2 := by
  intro n
  induction n with
  | zero =>
    intro m s hlen hP
    have : m = [] := List.eq_nil_of_length_eq_zero (Nat.le_zero.mp hlen)
    subst this
    simpa [popLoop] using hP
  | succ n ih =>
    intro m s hlen hP
    match m with
    | [] => simpa [popLoop] using hP
    | [d] =>
      by_cases hb : b < d
      · have h1 := hstep s d [] hP hb
        simp only [popLoop, if_pos hb]
        simpa using h1
      · simp only [popLoop, if_neg hb]
        exact hP
    | d :: d2 :: rest =>
      by_cases hb : b < d
      · have h1 := hstep s d (d2 :: rest) hP hb
        simp only [popLoop, if_pos hb]
        exact ih rest _ (by simp at hlen; omega) (by simpa using h1)
      · simp only [popLoop, if_neg hb]
        exact hP

/-! ## Step characterization lemmas -/

theorem pushChild_ok (st : BState) (e : Entry) (st' : BState)
    (h : pushChild st e = .ok st') :
    ∃ top rest, st.stack = top :: rest ∧
      st' = { st with stack := ⟨top.label, top.children ++ [e]⟩ :: rest } := by
  unfold pushChild at h
  split at h
  · exact absurd h (by simp)
  · rename_i top rest heq
    exact ⟨top, rest, heq, (Except.ok.inj h).symm⟩

theorem pushChildOfLast_ok (st : BState) (e : Entry) (st' : BState)
    (h : pushChildOfLast st e = .ok st') :
    ∃ top rest l cs, st.stack = top :: rest ∧
      top.children.getLast? = some (Entry.node l cs) ∧
      st' = { st with
        stack := ⟨top.label, top.children.dropLast ++ [Entry.node l (cs ++ [e])]⟩ :: rest } := by
  unfold pushChildOfLast at h
  split at h
  · exact absurd h (by simp)
  · rename_i top rest heq
    split at h
    · exact absurd h (by simp)
    · exact absurd h (by simp)
    · rename_i l cs hlast
      exact ⟨top, rest, l, cs, heq, hlast, (Except.ok.inj h).symm⟩


theorem elseAttach_ok (pol : ChunkPolicy) (st : BState) (tok : String) (st' : BState)
    (h : elseAttach pol st tok = .ok st') :
    ∃ top rest, (if pol.cascade then popReparent st.stack else st.stack) = top :: rest ∧
      st' = { st with
        stack := ⟨top.label, top.children ++ [Entry.leaf st.itmType tok]⟩ :: rest
        inTag := st.inTag.drop 2 } := by
  have hstk : (if pol.cascade then { st with stack := popReparent st.stack } else st).stack
      = (if pol.cascade then popReparent st.stack else st.stack) := by
    cases pol.cascade <;> rfl
  have hitm : (if pol.cascade then { st with stack := popReparent st.stack } else st).itmType
      = st.itmType := by cases pol.cascade <;> rfl
  have hbr : (if pol.cascade then { st with stack := popReparent st.stack } else st).bracket
      = st.bracket := by cases pol.cascade <;> rfl
  have hint : (if pol.cascade then { st with stack := popReparent st.stack } else st).inTag
      = st.inTag := by cases pol.cascade <;> rfl
  simp only [elseAttach] at h
  split at h
  · exact absurd h (by simp)
  · rename_i st2 hp
    obtain ⟨top, rest, heq, hst2⟩ := pushChild_ok _ _ _ hp
    have hfin : st' = { st2 with inTag := st2.inTag.drop 2 } := (Except.ok.inj h).symm
    refine ⟨top, rest, ?_, ?_⟩
    · rw [← hstk]; exact heq
    · rw [hfin, hst2]
      simp only [hitm, hbr, hint]

theorem matchChunk_ok_label (pol : ChunkPolicy) (itm l : String) (m : Bool)
    (h : matchChunk pol itm = .ok (l, m)) : l = effectiveOpenLabel pol itm := by
  unfold matchChunk at h
  unfold effectiveOpenLabel
  cases hpm : pol.partial_match with
  | true =>
    rw [hpm] at h
    simp only [if_true, eq_self_iff_true]
    cases hct : pol.chunk_types with
    | none => rw [hct] at h; exact absurd h (by simp)
    | some cts =>
      rw [hct] at h
      simp only [if_true] at h
      have h2 : partialScan pol.collapse_partials cts itm false = (l, m) := by
        have := Except.ok.inj h
        exact this
      change l = (partialScan pol.collapse_partials cts itm false).1
      rw [h2]
  | false =>
    rw [hpm] at h
    simp only [Bool.false_eq_true, if_false] at h ⊢
    cases hct : pol.chunk_types with
    | none =>
      rw [hct] at h
      have := Except.ok.inj h
      exact (congrArg Prod.fst this).symm
    | some cts =>
      rw [hct] at h
      have := Except.ok.inj h
      exact (congrArg Prod.fst this).symm

theorem openBracketStep_ok (pol : ChunkPolicy) (st : BState) (itm : String)
    (st' : BState) (l : String)
    (h : openBracketStep pol st itm = .ok (st', l)) :
    l = effectiveOpenLabel pol itm ∧
    st'.itmType = st.itmType ∧ st'.bracket = st.bracket + 1 ∧
    ((st'.stack = st.stack ∧ st'.inTag = st.inTag) ∨
     (pol.cascade = true ∧ st'.stack = ⟨l, []⟩ :: st.stack ∧
        st'.inTag = (st.bracket + 1) :: st.inTag) ∨
     (pol.cascade = false ∧ st.inTag = [] ∧
        ∃ top rest, st.stack = top :: rest ∧
          st'.stack = ⟨top.label, top.children ++ [Entry.node l []]⟩ :: rest ∧
          st'.inTag = (st.bracket + 1) :: st.inTag)) := by
  simp only [openBracketStep] at h
  split at h
  · exact absurd h (by simp)
  · rename_i itm1 matched hmc
    have hlab := matchChunk_ok_label pol itm itm1 matched hmc
    split at h
    · split at h
      · rename_i hcas
        have hp := Except.ok.inj h
        injection hp with hst hl
        subst hst
        subst hl
        exact ⟨hlab, rfl, rfl, Or.inr (Or.inl ⟨hcas, rfl, rfl⟩)⟩
      · rename_i hcas
        split at h
        · rename_i hlen
          split at h
          · exact absurd h (by simp)
          · rename_i top rest hstk
            have hp := Except.ok.inj h
            injection hp with hst hl
            subst hst
            subst hl
            exact ⟨hlab, rfl, rfl, Or.inr (Or.inr ⟨by simpa using hcas,
              List.length_eq_zero.mp hlen, top, rest, hstk, rfl, rfl⟩)⟩
        · have hp := Except.ok.inj h
          injection hp with hst hl
          subst hst
          subst hl
          exact ⟨hlab, rfl, rfl, Or.inl ⟨rfl, rfl⟩⟩
    · have hp := Except.ok.inj h
      injection hp with hst hl
      subst hst
      subst hl
      exact ⟨hlab, rfl, rfl, Or.inl ⟨rfl, rfl⟩⟩

theorem stackLeaves_leafAppend (top : Frame) (rest : List Frame)
    (tag : Option String) (tok : String) :
    stackLeaves (⟨top.label, top.children ++ [Entry.leaf tag tok]⟩ :: rest) =
      stackLeaves (top :: rest) ++ [(tag, tok)] := by
  rw [stackLeaves_headAppend]
  simp [leavesList, Entry.leaves]

theorem stackLeaves_lastChildLeafAppend (top : Frame) (rest : List Frame)
    (lx : String) (cs : List Entry) (tag : Option String) (tok : String)
    (hlast : top.children.getLast? = some (Entry.node lx cs)) :
    stackLeaves (⟨top.label,
        top.children.dropLast ++ [Entry.node lx (cs ++ [Entry.leaf tag tok])]⟩ :: rest) =
      stackLeaves (top :: rest) ++ [(tag, tok)] := by
  have hdec : top.children.dropLast ++ [Entry.node lx cs] = top.children :=
    List.dropLast_append_getLast? _ (Option.mem_def.mpr hlast)
  calc stackLeaves (⟨top.label,
          top.children.dropLast ++ [Entry.node lx (cs ++ [Entry.leaf tag tok])]⟩ :: rest)
      = stackLeaves rest ++
          (leavesList top.children.dropLast ++ (leavesList cs ++ [(tag, tok)])) := by
        simp [stackLeaves, Frame.leaves, leavesList_append, leavesList, Entry.leaves]
    _ = stackLeaves rest ++
          (leavesList (top.children.dropLast ++ [Entry.node lx cs]) ++ [(tag, tok)]) := by
        simp [leavesList_append, leavesList, Entry.leaves, List.append_assoc]
    _ = stackLeaves (top :: rest) ++ [(tag, tok)] := by
        rw [hdec]
        simp [stackLeaves, Frame.leaves, List.append_assoc]

theorem stackLeaves_condPop (c : Bool) (s : List Frame) :
    stackLeaves (if c then popReparent s else s) = stackLeaves s := by
  cases c <;> simp [popReparent_stackLeaves]

theorem leafAttach_ok (pol : ChunkPolicy) (st : BState) (itm : String) (st1 : BState)
    (h : leafAttach pol st itm = .ok st1) :
    st1.itmType = st.itmType ∧ st1.bracket = st.bracket ∧
    stackLeaves st1.stack = stackLeaves st.stack ++ [(st.itmType, tokOf itm)] ∧
    ((∃ top rest cs', st.stack = top :: rest ∧
        st1.stack = ⟨top.label, cs'⟩ :: rest ∧ st1.inTag = st.inTag) ∨
     (∃ top rest, (if pol.cascade then popReparent st.stack else st.stack) = top :: rest ∧
        st1.stack = ⟨top.label, top.children ++ [Entry.leaf st.itmType (tokOf itm)]⟩ :: rest ∧
        st1.inTag = st.inTag.drop 2)) := by
  have hElse : elseAttach pol st (tokOf itm) = .ok st1 →
      st1.itmType = st.itmType ∧ st1.bracket = st.bracket ∧
      stackLeaves st1.stack = stackLeaves st.stack ++ [(st.itmType, tokOf itm)] ∧
      ((∃ top rest cs', st.stack = top :: rest ∧
          st1.stack = ⟨top.label, cs'⟩ :: rest ∧ st1.inTag = st.inTag) ∨
       (∃ top rest, (if pol.cascade then popReparent st.stack else st.stack) = top :: rest ∧
          st1.stack = ⟨top.label, top.children ++ [Entry.leaf st.itmType (tokOf itm)]⟩ :: rest ∧
          st1.inTag = st.inTag.drop 2)) := by
    intro hE
    obtain ⟨top, rest, heq, hst1⟩ := elseAttach_ok _ _ _ _ hE
    subst hst1
    refine ⟨rfl, rfl, ?_, Or.inr ⟨top, rest, heq, rfl, rfl⟩⟩
    show stackLeaves (⟨top.label, top.children ++ [Entry.leaf st.itmType (tokOf itm)]⟩ :: rest)
        = stackLeaves st.stack ++ [(st.itmType, tokOf itm)]
    rw [stackLeaves_leafAppend, ← heq, stackLeaves_condPop]
  unfold leafAttach at h
  split at h
  · rename_i d rest0
    split at h
    · split at h
      · obtain ⟨top, rest, heq, hst1⟩ := pushChild_ok _ _ _ h
        subst hst1
        refine ⟨rfl, rfl, ?_, Or.inl ⟨top, rest,
          top.children ++ [Entry.leaf st.itmType (tokOf itm)], heq, rfl, rfl⟩⟩
        show stackLeaves (⟨top.label, top.children ++ [Entry.leaf st.itmType (tokOf itm)]⟩ :: rest)
            = stackLeaves st.stack ++ [(st.itmType, tokOf itm)]
        rw [stackLeaves_leafAppend, ← heq]
      · obtain ⟨top, rest, lx, cs, heq, hlast, hst1⟩ := pushChildOfLast_ok _ _ _ h
        subst hst1
        refine ⟨rfl, rfl, ?_, Or.inl ⟨top, rest,
          top.children.dropLast ++
            [Entry.node lx (cs ++ [Entry.leaf st.itmType (tokOf itm)])], heq, rfl, rfl⟩⟩
        show stackLeaves (⟨top.label, top.children.dropLast ++
            [Entry.node lx (cs ++ [Entry.leaf st.itmType (tokOf itm)])]⟩ :: rest)
            = stackLeaves st.stack ++ [(st.itmType, tokOf itm)]
        rw [stackLeaves_lastChildLeafAppend top rest lx cs _ _ hlast, ← heq]
    · exact hElse h
  · exact hElse h

theorem closeBracketStep_ok (pol : ChunkPolicy) (st : BState) (itm : String) (st' : BState)
    (h : closeBracketStep pol st itm = .ok st') :
    ∃ st1 : BState,
      st1.itmType = st.itmType ∧ st1.bracket = st.bracket ∧
      stackLeaves st1.stack = stackLeaves st.stack ++ [(st.itmType, tokOf itm)] ∧
      ((∃ top rest cs', st.stack = top :: rest ∧
          st1.stack = ⟨top.label, cs'⟩ :: rest ∧ st1.inTag = st.inTag) ∨
       (∃ top rest, (if pol.cascade then popReparent st.stack else st.stack) = top :: rest ∧
          st1.stack = ⟨top.label, top.children ++ [Entry.leaf st.itmType (tokOf itm)]⟩ :: rest ∧
          st1.inTag = st.inTag.drop 2)) ∧
      st'.itmType = st1.itmType ∧
      st'.bracket = st1.bracket - (((splitOnChar (strBack itm) itm.data).length : Int) - 1) ∧
      st'.stack = (popLoop pol.cascade st'.bracket st1.stack st1.inTag).1 ∧
      st'.inTag = (popLoop pol.cascade st'.bracket st1.stack st1.inTag).2 := by
  simp only [closeBracketStep] at h
  split at h
  · exact absurd h (by simp)
  · rename_i st1 hA
    have hst' : st' = { st1 with
        bracket := st1.bracket - (((splitOnChar (strBack itm) itm.data).length : Int) - 1)
        stack := (popLoop pol.cascade
          (st1.bracket - (((splitOnChar (strBack itm) itm.data).length : Int) - 1))
          st1.stack st1.inTag).1
        inTag := (popLoop pol.cascade
          (st1.bracket - (((splitOnChar (strBack itm) itm.data).length : Int) - 1))
          st1.stack st1.inTag).2 } := (Except.ok.inj h).symm
    obtain ⟨h1, h2, h3, h4⟩ := leafAttach_ok _ _ _ _ hA
    subst hst'
    exact ⟨st1, h1, h2, h3, h4, rfl, rfl, rfl, rfl⟩

theorem closePhase_ok (pol : ChunkPolicy) (st : BState) (itm : String) (st' : BState)
    (h : closePhase pol st itm = .ok st') :
    (itm.data ≠ [] ∧ isRBracketChar (strBack itm) = false ∧ st' = st) ∨
    (itm.data ≠ [] ∧ isRBracketChar (strBack itm) = true ∧
      closeBracketStep pol st itm = .ok st') := by
  unfold closePhase at h
  split at h
  · exact absurd h (by simp)
  · rename_i hne
    split at h
    · rename_i hR
      exact Or.inr ⟨hne, hR, h⟩
    · rename_i hR
      exact Or.inl ⟨hne, by simpa using hR, (Except.ok.inj h).symm⟩

theorem openPhase_ok (pol : ChunkPolicy) (st : BState) (itm0 : String)
    (st' : BState) (itm : String)
    (h : openPhase pol st itm0 = .ok (st', itm)) :
    (isLBracketChar (strFront itm0) = false ∧ st' = st ∧ itm = itm0) ∨
    (isLBracketChar (strFront itm0) = true ∧
      itm = effectiveOpenLabel pol (strDropOne itm0) ∧
      st'.itmType = some itm ∧ st'.bracket = st.bracket + 1 ∧
      ((st'.stack = st.stack ∧ st'.inTag = st.inTag) ∨
       (pol.cascade = true ∧ st'.stack = ⟨itm, []⟩ :: st.stack ∧
          st'.inTag = (st.bracket + 1) :: st.inTag) ∨
       (pol.cascade = false ∧ st.inTag = [] ∧
          ∃ top rest, st.stack = top :: rest ∧
            st'.stack = ⟨top.label, top.children ++ [Entry.node itm []]⟩ :: rest ∧
            st'.inTag = (st.bracket + 1) :: st.inTag))) := by
  unfold openPhase at h
  split at h
  · rename_i hL
    obtain ⟨p, hp, hfp⟩ := exceptMap_ok _ _ _ h
    obtain ⟨stA, lA⟩ := p
    injection hfp with hst hl
    obtain ⟨hlab, hity, hbr, hshape⟩ := openBracketStep_ok pol st (strDropOne itm0) stA lA hp
    subst hst
    subst hl
    refine Or.inr ⟨hL, hlab, rfl, hbr, ?_⟩
    rcases hshape with ⟨h1, h2⟩ | ⟨hc, h1, h2⟩ | ⟨hc, hemp, top, rest, h1, h2, h3⟩
    · exact Or.inl ⟨h1, h2⟩
    · exact Or.inr (Or.inl ⟨hc, h1, h2⟩)
    · exact Or.inr (Or.inr ⟨hc, hemp, top, rest, h1, h2, h3⟩)
  · rename_i hL
    injection Except.ok.inj h with hst hl
    exact Or.inl ⟨by simpa using hL, hst.symm, hl.symm⟩

theorem bottomLabel_cons_of_ne (f : Frame) (s : List Frame) (h : s ≠ []) :
    bottomLabel (f :: s) = bottomLabel s := by
  cases s with
  | nil => exact absurd rfl h
  | cons g rs => exact bottomLabel_cons_cons f g rs

theorem condPop_ne_nil (c : Bool) (s : List Frame) (h : s ≠ []) :
    (if c then popReparent s else s) ≠ [] := by
  cases c with
  | false => simpa using h
  | true => simpa using popReparent_ne_nil s h

theorem condPop_bottomLabel (c : Bool) (s : List Frame) :
    bottomLabel (if c then popReparent s else s) = bottomLabel s := by
  cases c <;> simp [popReparent_bottomLabel]

theorem popLoop_stackInv (pol : ChunkPolicy) (b : Int) (s : List Frame) (m : List Int)
    (hne : s ≠ []) (hbot : bottomLabel s = some pol.top_node)
    (hflat : pol.cascade = false → s.length = 1)
    (hcasc : pol.cascade = true → m.length + 1 ≤ s.length) :
    (popLoop pol.cascade b s m).1 ≠ [] ∧
    bottomLabel (popLoop pol.cascade b s m).1 = some pol.top_node ∧
    (pol.cascade = false → (popLoop pol.cascade b s m).1.length = 1) ∧
    (pol.cascade = true →
      (popLoop pol.cascade b s m).2.length + 1 ≤ (popLoop pol.cascade b s m).1.length) := by
  refine popLoop_inv pol.cascade b
    (fun s m => s ≠ [] ∧ bottomLabel s = some pol.top_node ∧
      (pol.cascade = false → s.length = 1) ∧
      (pol.cascade = true → m.length + 1 ≤ s.length))
    ?_ m.length m s le_rfl ⟨hne, hbot, hflat, hcasc⟩
  intro s d rest hP hb
  obtain ⟨h1, h2, h3, h4⟩ := hP
  cases hc : pol.cascade with
  | false =>
    simp only [hc, Bool.false_eq_true, if_false]
    exact ⟨h1, h2, fun _ => h3 hc, fun hh => hh.elim⟩
  | true =>
    have hlen2 : 2 ≤ s.length := by
      have h5 := h4 hc
      simp at h5
      omega
    simp only [hc, if_true]
    refine ⟨popReparent_ne_nil s h1, by rw [popReparent_bottomLabel]; exact h2,
      fun hh => Bool.noConfusion hh, fun _ => ?_⟩
    rw [popReparent_length, if_pos hlen2]
    have h5 := h4 hc
    have hlt : rest.tail.length = rest.length - 1 := by simp [List.length_tail]
    simp at h5
    omega

theorem processToken_inv (pol : ChunkPolicy) (st : BState) (t : String) (st' : BState)
    (h : processToken pol st t = .ok st') (hinv : StackInv pol st) : StackInv pol st' := by
  obtain ⟨hne, hbot, hflat, hcasc⟩ := hinv
  unfold processToken at h
  split at h
  · exact absurd h (by simp)
  · split at h
    · exact absurd h (by simp)
    · rename_i stO itm hOP
      have hinvO : StackInv pol stO := by
        rcases openPhase_ok pol st t stO itm hOP with ⟨_, hst, _⟩ | ⟨_, _, _, _, hshape⟩
        · subst hst
          exact ⟨hne, hbot, hflat, hcasc⟩
        · rcases hshape with ⟨h1, h2⟩ | ⟨hc, h1, h2⟩ | ⟨hc, hemp, top, rest, h1, h2, h3⟩
          · exact ⟨by rw [h1]; exact hne, by rw [h1]; exact hbot,
              fun hf => by rw [h1]; exact hflat hf,
              fun hcas => by rw [h1, h2]; exact hcasc hcas⟩
          · refine ⟨by rw [h1]; simp, ?_, fun hf => absurd hf (by simp [hc]), fun hcas => ?_⟩
            · rw [h1, bottomLabel_cons_of_ne _ _ hne]
              exact hbot
            · rw [h1, h2]
              have h5 := hcasc hc
              simp
              omega
          · refine ⟨by rw [h2]; simp, ?_, fun hf => ?_, fun hcas => absurd hcas (by simp [hc])⟩
            · rw [h2,
                bottomLabel_headSwap ⟨top.label, top.children ++ [Entry.node itm []]⟩ top rest rfl,
                ← h1]
              exact hbot
            · have h5 := hflat hf
              rw [h1] at h5
              rw [h2]
              simp only [List.length_cons] at h5 ⊢
              omega
      obtain ⟨hneO, hbotO, hflatO, hcascO⟩ := hinvO
      rcases closePhase_ok pol stO itm st' h with ⟨_, _, hst⟩ | ⟨_, _, hCB⟩
      · subst hst
        exact ⟨hneO, hbotO, hflatO, hcascO⟩
      · obtain ⟨st1, hity1, hbr1, _, hattach, _, hbr', hstk', hint'⟩ :=
          closeBracketStep_ok pol stO itm st' hCB
        have hst1 : st1.stack ≠ [] ∧ bottomLabel st1.stack = some pol.top_node ∧
            (pol.cascade = false → st1.stack.length = 1) ∧
            (pol.cascade = true → st1.inTag.length + 1 ≤ st1.stack.length) := by
          rcases hattach with ⟨top, rest, cs', h1, h2, h3⟩ | ⟨top, rest, h1, h2, h3⟩
          · refine ⟨by rw [h2]; simp, ?_, fun hf => ?_, fun hcas => ?_⟩
            · rw [h2, bottomLabel_headSwap ⟨top.label, cs'⟩ top rest rfl, ← h1]
              exact hbotO
            · have h5 := hflatO hf
              rw [h1] at h5
              rw [h2]
              simp only [List.length_cons] at h5 ⊢
              omega
            · have h5 := hcascO hcas
              rw [h1] at h5
              rw [h2, h3]
              simp only [List.length_cons] at h5 ⊢
              omega
          · refine ⟨by rw [h2]; simp, ?_, fun hf => ?_, fun hcas => ?_⟩
            · rw [h2, bottomLabel_headSwap
                ⟨top.label, top.children ++ [Entry.leaf stO.itmType (tokOf itm)]⟩ top rest rfl]
              have h6 : bottomLabel (top :: rest) = bottomLabel stO.stack := by
                rw [← h1, condPop_bottomLabel]
              rw [h6]
              exact hbotO
            · have hfs : stO.stack = top :: rest := by
                have h6 : (if pol.cascade then popReparent stO.stack else stO.stack)
                    = stO.stack := by simp [hf]
                rw [← h6, h1]
              have h5 := hflatO hf
              rw [hfs] at h5
              rw [h2]
              simp only [List.length_cons] at h5 ⊢
              omega
            · have hps : popReparent stO.stack = top :: rest := by
                have h6 : (if pol.cascade then popReparent stO.stack else stO.stack)
                    = popReparent stO.stack := by simp [hcas]
                rw [← h6, h1]
              have h6 : st1.inTag.length = stO.inTag.length - 2 := by
                rw [h3]
                simp only [List.length_drop]
              cases hin : stO.inTag with
              | nil =>
                rw [hin] at h6
                rw [h2]
                simp only [List.length_cons, List.length_nil] at h6 ⊢
                omega
              | cons d r =>
                have hc2 := hcascO hcas
                rw [hin] at hc2 h6
                have h7 : 2 ≤ stO.stack.length := by
                  simp only [List.length_cons] at hc2
                  omega
                have h8 : st1.stack.length = (popReparent stO.stack).length := by
                  rw [h2, hps]
                  simp
                rw [h8, popReparent_length, if_pos h7]
                simp only [List.length_cons] at h6 hc2
                omega
        obtain ⟨k1, k2, k3, k4⟩ := hst1
        have hfin := popLoop_stackInv pol st'.bracket st1.stack st1.inTag k1 k2 k3 k4
        rw [← hstk', ← hint'] at hfin
        exact ⟨hfin.1, hfin.2.1, hfin.2.2.1, hfin.2.2.2⟩

theorem popLoop_stackLeaves (c : Bool) (b : Int) (s : List Frame) (m : List Int) :
    stackLeaves (popLoop c b s m).1 = stackLeaves s := by
  refine popLoop_inv c b (fun s' m' => stackLeaves s' = stackLeaves s)
    ?_ m.length m s le_rfl rfl
  intro s' d rest hP hb
  rw [stackLeaves_condPop]
  exact hP

theorem processToken_leaves (pol : ChunkPolicy) (st : BState) (t : String) (st' : BState)
    (h : processToken pol st t = .ok st') :
    stackLeaves st'.stack = stackLeaves st.stack ++
      (Option.toList (leafText pol t)).map (fun w => (st'.itmType, w)) ∧
    (isLBracketChar (strFront t) = true →
      st'.itmType = some (effectiveOpenLabel pol (strDropOne t))) ∧
    (isLBracketChar (strFront t) = false → st'.itmType = st.itmType) := by
  unfold processToken at h
  split at h
  · exact absurd h (by simp)
  · rename_i hnet
    split at h
    · exact absurd h (by simp)
    · rename_i stO itm hOP
      rcases openPhase_ok pol st t stO itm hOP with ⟨hL, hst, hitm⟩ | ⟨hL, hlab, hity, hbr, hshape⟩
      · rcases closePhase_ok pol stO itm st' h with ⟨hn, hR, hst'⟩ | ⟨hn, hR, hCB⟩
        · have hlt : leafText pol t = none := by
            rw [hitm] at hn hR
            simp [leafText, hnet, hL, hR]
          rw [hlt, hst', hst]
          exact ⟨by simp, fun hc => absurd hc (by simp [hL]), fun _ => rfl⟩
        · obtain ⟨st1, hity1, _, hlv1, _, hity', _, hstk', _⟩ :=
            closeBracketStep_ok pol stO itm st' hCB
          have hlt : leafText pol t = some (tokOf t) := by
            rw [hitm] at hn hR
            simp [leafText, hnet, hL, hR]
          have hreg : st'.itmType = st.itmType := by rw [hity', hity1, hst]
          rw [hlt]
          refine ⟨?_, fun hc => absurd hc (by simp [hL]), fun _ => hreg⟩
          rw [hstk', popLoop_stackLeaves, hlv1, hst, hitm, hreg]
          simp
      · have hlvO : stackLeaves stO.stack = stackLeaves st.stack := by
          rcases hshape with ⟨h1, _⟩ | ⟨_, h1, _⟩ | ⟨_, _, top, rest, h1, h2, _⟩
          · rw [h1]
          · rw [h1]
            simp [stackLeaves, Frame.leaves, leavesList]
          · rw [h2, stackLeaves_headAppend, ← h1]
            simp [leavesList, Entry.leaves]
        rcases closePhase_ok pol stO itm st' h with ⟨hn, hR, hst'⟩ | ⟨hn, hR, hCB⟩
        · have hlt : leafText pol t = none := by
            simp [leafText, hnet, hL, ← hlab, hn, hR]
          rw [hlt, hst']
          exact ⟨by rw [hlvO]; simp, fun _ => by rw [hity, hlab],
            fun hc => absurd hL (by simp [hc])⟩
        · obtain ⟨st1, hity1, _, hlv1, _, hity', _, hstk', _⟩ :=
            closeBracketStep_ok pol stO itm st' hCB
          have hlt : leafText pol t = some (tokOf itm) := by
            simp [leafText, hnet, hL, ← hlab, hn, hR]
          have hreg : st'.itmType = some itm := by rw [hity', hity1, hity]
          rw [hlt]
          refine ⟨?_, fun _ => by rw [hreg, hlab], fun hc => absurd hL (by simp [hc])⟩
          rw [hstk', popLoop_stackLeaves, hlv1, hlvO, hity, hreg]
          simp

theorem foldlM_preserve (pol : ChunkPolicy) (P : BState → Prop)
    (hstep : ∀ st t st', processToken pol st t = .ok st' → P st → P st') :
    ∀ (toks : List String) (st0 st : BState),
      List.foldlM (processToken pol) st0 toks = .ok st → P st0 → P st := by
  intro toks
  induction toks with
  | nil =>
    intro st0 st h hP
    have hid : st0 = st := by simpa [List.foldlM_nil, pure, Except.pure] using h
    rw [← hid]
    exact hP
  | cons t rest ih =>
    intro st0 st h hP
    obtain ⟨st1, h1, h2⟩ := foldlM_except_ok_cons _ _ _ _ _ h
    exact ih st1 st h2 (hstep st0 t st1 h1 hP)

theorem initState_inv (pol : ChunkPolicy) : StackInv pol (initState pol.top_node) := by
  refine ⟨by simp [initState], by simp [initState, bottomLabel],
    fun _ => by simp [initState], fun _ => by simp [initState]⟩

theorem runTokens_inv (pol : ChunkPolicy) (toks : List String) (st : BState)
    (h : runTokens pol toks = .ok st) : StackInv pol st :=
  foldlM_preserve pol (StackInv pol)
    (fun st t st' hs hP => processToken_inv pol st t st' hs hP)
    toks (initState pol.top_node) st h (initState_inv pol)

/-- C1 amended.  For EVERY token sequence and every policy the per-sentence
loop terminates (`runTokens` is a total function), and whenever it completes
without a Python exception the yielded stack is nonempty and its bottom
(first, in Python order) frame still carries the `top_node` label.  The
original claim's "exactly one root tree" part is false for cascading
policies (see the counterexample): the stack can retain unclosed chunk
frames above the root even on balanced input. -/
theorem chunk_stack_root_preserved (pol : ChunkPolicy) (toks : List String) (st : BState)
    (h : runTokens pol toks = .ok st) :
    st.stack ≠ [] ∧ bottomLabel st.stack = some pol.top_node := by
  obtain ⟨h1, h2, _, _⟩ := runTokens_inv pol toks st h
  exact ⟨h1, h2⟩

theorem chunk_stack_root_preserved_witness :
    (([⟨"S", [Entry.node "NP" [Entry.leaf (some "NP") "dog"]]⟩] : List Frame) ≠ []) ∧
      bottomLabel [⟨"S", [Entry.node "NP" [Entry.leaf (some "NP") "dog"]]⟩] = some "S" :=
  chunk_stack_root_preserved ⟨some ["NP"], "S", false, true, false⟩ ["(NP", "dog)"]
    ⟨0, some "NP", [⟨"S", [Entry.node "NP" [Entry.leaf (some "NP") "dog"]]⟩], []⟩ rfl

/-- C2 amended.  With `cascade` the depth markers UNDERCOUNT the open chunk
frames: throughout the scan (every prefix of the token sequence is itself a
run) there is at most one marker per frame above the root, i.e.
`len(inTag) + 1 <= len(stack)` — but not equality, because the popping loop
(and the else-branch of the leaf attach) remove TWO markers
(`inTag = [] + inTag[:-2]`) while popping at most ONE frame (see the
counterexample). -/
theorem depth_marker_undercount (pol : ChunkPolicy) (toks : List String) (st : BState)
    (hc : pol.cascade = true) (h : runTokens pol toks = .ok st) :
    st.inTag.length + 1 ≤ st.stack.length := by
  obtain ⟨_, _, _, h4⟩ := runTokens_inv pol toks st h
  exact h4 hc

theorem depth_marker_undercount_witness :
    ([(1 : Int)] : List Int).length + 1 ≤ ([⟨"A", []⟩, ⟨"S", []⟩] : List Frame).length :=
  depth_marker_undercount ⟨some ["A"], "S", false, true, true⟩ ["(A"]
    ⟨1, some "A", [⟨"A", []⟩, ⟨"S", []⟩], [1]⟩ rfl rfl

/-- C10 confirmed.  When `cascade` is false the frame stack is exactly the
single `top_node` root frame after every step of the scan (every prefix of
the token sequence is itself a run of the loop): a matched chunk is appended
as a child of the root frame (`stack[-1].append(chunk)`), never pushed, and
every pop in the code is guarded by `if cascade == True`. -/
theorem no_cascade_single_frame (pol : ChunkPolicy) (toks : List String) (st : BState)
    (hc : pol.cascade = false) (h : runTokens pol toks = .ok st) :
    ∃ cs, st.stack = [⟨pol.top_node, cs⟩] := by
  obtain ⟨h1, h2, h3, _⟩ := runTokens_inv pol toks st h
  obtain ⟨f, hf⟩ := List.length_eq_one.mp (h3 hc)
  refine ⟨f.children, ?_⟩
  rw [hf]
  rw [hf] at h2
  simp [bottomLabel] at h2
  cases f
  simp at h2 ⊢
  exact h2

theorem no_cascade_single_frame_witness :
    ∃ cs, ([⟨"S", [Entry.node "PP" [Entry.leaf (some "PP") "in"]]⟩] : List Frame)
      = [⟨"S", cs⟩] :=
  no_cascade_single_frame ⟨some ["PP"], "S", false, true, false⟩ ["(PP", "in)"]
    ⟨0, some "PP", [⟨"S", [Entry.node "PP" [Entry.leaf (some "PP") "in"]]⟩], []⟩ rfl rfl

/-- C3 amended.  Every leaf the builder attaches is tagged with the CURRENT
LABEL REGISTER (`itmType`), not with the nearest enclosing bracket label as
written: processing one token appends at most one leaf to the flattened leaf
sequence, tagged with the register's value after the token's opening phase;
after an opening bracket the register holds the stripped label WITH
collapse-renaming applied (`effectiveOpenLabel`), and it is not reset when
brackets close.  Under `collapse_partials` the tag is therefore the canonical
chunk type, not the label as written (see the counterexample). -/
theorem leaf_tag_from_register (pol : ChunkPolicy) (st : BState) (t : String) (st' : BState)
    (h : processToken pol st t = .ok st') :
    BState.allLeaves st' = BState.allLeaves st ++
      (Option.toList (leafText pol t)).map (fun w => (st'.itmType, w)) ∧
    (isLBracketChar (strFront t) = true →
      st'.itmType = some (effectiveOpenLabel pol (strDropOne t))) ∧
    (isLBracketChar (strFront t) = false → st'.itmType = st.itmType) :=
  processToken_leaves pol st t st' h

theorem leaf_tag_from_register_witness :
    BState.allLeaves ⟨0, some "NP", [⟨"S", [Entry.node "NP" [Entry.leaf (some "NP") "dog"]]⟩], []⟩
      = BState.allLeaves ⟨1, some "NP", [⟨"S", [Entry.node "NP" []]⟩], [1]⟩ ++
        (Option.toList (leafText ⟨some ["NP"], "S", false, true, false⟩ "dog)")).map
          (fun w => ((some "NP" : Option String), w)) ∧
    (isLBracketChar (strFront "dog)") = true →
      (some "NP" : Option String) =
        some (effectiveOpenLabel ⟨some ["NP"], "S", false, true, false⟩ (strDropOne "dog)"))) ∧
    (isLBracketChar (strFront "dog)") = false →
      (some "NP" : Option String) = some "NP") :=
  leaf_tag_from_register ⟨some ["NP"], "S", false, true, false⟩
    ⟨1, some "NP", [⟨"S", [Entry.node "NP" []]⟩], [1]⟩ "dog)"
    ⟨0, some "NP", [⟨"S", [Entry.node "NP" [Entry.leaf (some "NP") "dog"]]⟩], []⟩ rfl

theorem foldlM_leaves (pol : ChunkPolicy) :
    ∀ (toks : List String) (st0 st : BState),
      List.foldlM (processToken pol) st0 toks = .ok st →
      (stackLeaves st.stack).map Prod.snd =
        (stackLeaves st0.stack).map Prod.snd ++ toks.filterMap (leafText pol) := by
  intro toks
  induction toks with
  | nil =>
    intro st0 st h
    have hid : st0 = st := by simpa [List.foldlM_nil, pure, Except.pure] using h
    rw [← hid]
    simp
  | cons t rest ih =>
    intro st0 st h
    obtain ⟨st1, h1, h2⟩ := foldlM_except_ok_cons _ _ _ _ _ h
    have hlv := (processToken_leaves pol st0 t st1 h1).1
    rw [ih st1 st h2, hlv]
    cases hlt : leafText pol t with
    | none => simp [List.filterMap_cons, hlt]
    | some w => simp [List.filterMap_cons, hlt]

/-- C6 amended.  Flattening the leaves of the WHOLE yielded stack (all
frames, root first) recovers, in input order, exactly one leaf text per
token that ends — after bracket stripping and collapse renaming — in a
closing delimiter, namely the text before the first occurrence of that
delimiter (`leafText`).  The original round-trip claim is false: a bare
token with no bracket on either side is dropped entirely, and collapse
renaming changes the tags (see the counterexample). -/
theorem chunked_leaves_in_input_order (pol : ChunkPolicy) (toks : List String) (st : BState)
    (h : runTokens pol toks = .ok st) :
    (BState.allLeaves st).map Prod.snd = toks.filterMap (leafText pol) := by
  have hfold := foldlM_leaves pol toks (initState pol.top_node) st h
  show (stackLeaves st.stack).map Prod.snd = toks.filterMap (leafText pol)
  rw [hfold]
  simp [initState, stackLeaves, Frame.leaves, leavesList]

theorem chunked_leaves_in_input_order_witness :
    (BState.allLeaves ⟨-1, none, [⟨"S", [Entry.leaf none "dog"]⟩], []⟩).map Prod.snd =
      ["dog)"].filterMap (leafText ⟨some ["NP"], "S", false, true, false⟩) :=
  chunked_leaves_in_input_order ⟨some ["NP"], "S", false, true, false⟩ ["dog)"]
    ⟨-1, none, [⟨"S", [Entry.leaf none "dog"]⟩], []⟩ rfl

theorem matchChunk_none_exact (pol : ChunkPolicy) (itm : String)
    (hct : pol.chunk_types = none) (hpm : pol.partial_match = false) :
    matchChunk pol itm = .ok (itm, false) := by
  simp [matchChunk, hct, hpm]

theorem matchChunk_empty_partial (pol : ChunkPolicy) (itm : String)
    (hct : pol.chunk_types = some []) (hpm : pol.partial_match = true) :
    matchChunk pol itm = .ok (itm, false) := by
  simp [matchChunk, hct, hpm, partialScan]

theorem openBracketStep_unmatched_eq (pol : ChunkPolicy) (st : BState) (itm : String)
    (hmc : matchChunk pol itm = .ok (itm, false)) :
    openBracketStep pol st itm = .ok ({ st with bracket := st.bracket + 1 }, itm) := by
  unfold openBracketStep
  rw [hmc]
  rfl

theorem elseAttach_singleton (pol : ChunkPolicy) (st : BState) (tok : String) (f : Frame)
    (hst : st.stack = [f]) :
    elseAttach pol st tok = .ok { st with
      stack := [⟨f.label, f.children ++ [Entry.leaf st.itmType tok]⟩]
      inTag := st.inTag.drop 2 } := by
  have h1 : (if pol.cascade then { st with stack := popReparent st.stack } else st)
      = { st with stack := [f] } := by
    cases pol.cascade with
    | true => rw [if_pos rfl, hst]; rfl
    | false => rw [if_neg (by simp), ← hst]
  unfold elseAttach
  rw [h1]
  rfl

theorem closeBracketStep_singleton (pol : ChunkPolicy) (st : BState) (itm : String) (f : Frame)
    (hst : st.stack = [f]) (hin : st.inTag = []) :
    closeBracketStep pol st itm = .ok { st with
      bracket := st.bracket - (((splitOnChar (strBack itm) itm.data).length : Int) - 1)
      stack := [⟨f.label, f.children ++ [Entry.leaf st.itmType (tokOf itm)]⟩]
      inTag := [] } := by
  have hA : leafAttach pol st itm = .ok { st with
      stack := [⟨f.label, f.children ++ [Entry.leaf st.itmType (tokOf itm)]⟩]
      inTag := [] } := by
    have hE := elseAttach_singleton pol st (tokOf itm) f hst
    rw [hin] at hE
    unfold leafAttach
    rw [hin]
    exact hE
  unfold closeBracketStep
  rw [hA]
  rfl

theorem openBracketStep_unmatched (pol : ChunkPolicy) (st : BState) (itm : String)
    (st' : BState) (l : String)
    (hmc : matchChunk pol itm = .ok (itm, false))
    (h : openBracketStep pol st itm = .ok (st', l)) :
    st' = { st with bracket := st.bracket + 1 } ∧ l = itm := by
  rw [openBracketStep_unmatched_eq pol st itm hmc] at h
  injection Except.ok.inj h with h1 h2
  exact ⟨h1.symm, h2.symm⟩

theorem processToken_noChunk (pol : ChunkPolicy)
    (hmc : ∀ itm, matchChunk pol itm = .ok (itm, false))
    (st : BState) (t : String) (st' : BState)
    (h : processToken pol st t = .ok st') (hinv : NoChunkInv pol st) : NoChunkInv pol st' := by
  obtain ⟨⟨cs, hst, hleaf⟩, hin⟩ := hinv
  unfold processToken at h
  split at h
  · exact absurd h (by simp)
  · split at h
    · exact absurd h (by simp)
    · rename_i stO itm hOP
      have hOPfacts : stO.stack = st.stack ∧ stO.inTag = st.inTag ∧
          stO.itmType = st.itmType ∨
          stO.stack = st.stack ∧ stO.inTag = st.inTag := by
        unfold openPhase at hOP
        split at hOP
        · obtain ⟨p, hp, hfp⟩ := exceptMap_ok _ _ _ hOP
          obtain ⟨stA, lA⟩ := p
          obtain ⟨h1, h2⟩ := openBracketStep_unmatched pol st (strDropOne t) stA lA (hmc _) hp
          injection hfp with hfst hfl
          right
          constructor
          · rw [← hfst, h1]
          · rw [← hfst, h1]
        · injection Except.ok.inj hOP with h1 h2
          left
          exact ⟨by rw [← h1], by rw [← h1], by rw [← h1]⟩
      have hsk : stO.stack = st.stack := by
        rcases hOPfacts with ⟨h1, _, _⟩ | ⟨h1, _⟩ <;> exact h1
      have hit : stO.inTag = st.inTag := by
        rcases hOPfacts with ⟨_, h1, _⟩ | ⟨_, h1⟩ <;> exact h1
      have hstO : stO.stack = [⟨pol.top_node, cs⟩] := by rw [hsk, hst]
      have hinO : stO.inTag = [] := by rw [hit, hin]
      rcases closePhase_ok pol stO itm st' h with ⟨_, _, hst'⟩ | ⟨_, _, hCB⟩
      · rw [hst']
        exact ⟨⟨cs, hstO, hleaf⟩, hinO⟩
      · rw [closeBracketStep_singleton pol stO itm ⟨pol.top_node, cs⟩ hstO hinO] at hCB
        have hs := (Except.ok.inj hCB).symm
        rw [hs]
        refine ⟨⟨cs ++ [Entry.leaf stO.itmType (tokOf itm)], rfl, ?_⟩, rfl⟩
        intro e he
        rcases List.mem_append.mp he with h1 | h1
        · exact hleaf e h1
        · simp at h1
          rw [h1]
          rfl

/-- C4 amended.  With `chunk_types = None` and exact matching, NO bracket
label ever matches (`chunk_types is not None and itm in chunk_types` is
false), so the builder never creates a chunk node: the result is the single
`top_node` frame whose children are all flat leaves.  (With `partial_match`
the code instead raises `TypeError` iterating over `None` — see the
counterexample.)  The spec's "every bracket matches" is the opposite of what
the code does. -/
theorem chunk_types_none_matches_nothing (pol : ChunkPolicy) (toks : List String) (st : BState)
    (hct : pol.chunk_types = none) (hpm : pol.partial_match = false)
    (h : runTokens pol toks = .ok st) :
    ∃ cs, st.stack = [⟨pol.top_node, cs⟩] ∧ ∀ e ∈ cs, Entry.isLeaf e = true := by
  have hmc : ∀ itm, matchChunk pol itm = .ok (itm, false) :=
    fun itm => matchChunk_none_exact pol itm hct hpm
  have hfin := foldlM_preserve pol (NoChunkInv pol)
    (fun st t st' hs hP => processToken_noChunk pol hmc st t st' hs hP)
    toks (initState pol.top_node) st h ⟨⟨[], rfl, by simp⟩, rfl⟩
  exact hfin.1

theorem chunk_types_none_matches_nothing_witness :
    ∃ cs, ([⟨"S", [Entry.leaf (some "NP") "dog"]⟩] : List Frame) = [⟨"S", cs⟩] ∧
      ∀ e ∈ cs, Entry.isLeaf e = true :=
  chunk_types_none_matches_nothing ⟨none, "S", false, true, false⟩ ["(NP", "dog)"]
    ⟨0, some "NP", [⟨"S", [Entry.leaf (some "NP") "dog"]⟩], []⟩ rfl rfl rfl

theorem processToken_nochunk_progress (pol : ChunkPolicy)
    (hmc : ∀ itm, matchChunk pol itm = .ok (itm, false))
    (st : BState) (t : String) (f : Frame)
    (hwf : t.data ≠ [] ∧ (isLBracketChar (strFront t) = true → 2 ≤ t.data.length))
    (hst : st.stack = [f]) (hin : st.inTag = []) :
    ∃ st' f', processToken pol st t = .ok st' ∧ st'.stack = [f'] ∧ st'.inTag = [] := by
  obtain ⟨hnet, hlen⟩ := hwf
  by_cases hL : isLBracketChar (strFront t) = true
  · have hdne : (strDropOne t).data ≠ [] := by
      show t.data.tail ≠ []
      have h2 := hlen hL
      cases hd : t.data with
      | nil => simp [hd] at hnet
      | cons c rest =>
        rw [hd] at h2
        simp only [List.tail_cons]
        simp only [List.length_cons] at h2
        intro hcon
        rw [hcon] at h2
        simp at h2
    have hOP : openPhase pol st t = .ok
        ({ st with bracket := st.bracket + 1, itmType := some (strDropOne t) },
          strDropOne t) := by
      unfold openPhase
      rw [if_pos hL, openBracketStep_unmatched_eq pol st (strDropOne t) (hmc _)]
      rfl
    have hpt : processToken pol st t =
        closePhase pol { st with bracket := st.bracket + 1, itmType := some (strDropOne t) }
          (strDropOne t) := by
      unfold processToken
      rw [if_neg hnet, hOP]
    by_cases hR : isRBracketChar (strBack (strDropOne t)) = true
    · have hCB := closeBracketStep_singleton pol
        { st with bracket := st.bracket + 1, itmType := some (strDropOne t) }
        (strDropOne t) f hst hin
      refine ⟨{ st with
          bracket := (st.bracket + 1) -
            (((splitOnChar (strBack (strDropOne t)) (strDropOne t).data).length : Int) - 1)
          itmType := some (strDropOne t)
          stack := [⟨f.label, f.children ++
            [Entry.leaf (some (strDropOne t)) (tokOf (strDropOne t))]⟩]
          inTag := [] },
        ⟨f.label, f.children ++
          [Entry.leaf (some (strDropOne t)) (tokOf (strDropOne t))]⟩, ?_, rfl, rfl⟩
      rw [hpt]
      unfold closePhase
      rw [if_neg hdne, if_pos hR]
      exact hCB
    · refine ⟨{ st with bracket := st.bracket + 1, itmType := some (strDropOne t) }, f,
        ?_, hst, hin⟩
      rw [hpt]
      unfold closePhase
      rw [if_neg hdne, if_neg hR]
  · have hOP : openPhase pol st t = .ok (st, t) := by
      unfold openPhase
      rw [if_neg hL]
    have hpt : processToken pol st t = closePhase pol st t := by
      unfold processToken
      rw [if_neg hnet, hOP]
    by_cases hR : isRBracketChar (strBack t) = true
    · have hCB := closeBracketStep_singleton pol st t f hst hin
      refine ⟨{ st with
          bracket := st.bracket - (((splitOnChar (strBack t) t.data).length : Int) - 1)
          stack := [⟨f.label, f.children ++ [Entry.leaf st.itmType (tokOf t)]⟩]
          inTag := [] },
        ⟨f.label, f.children ++ [Entry.leaf st.itmType (tokOf t)]⟩, ?_, rfl, rfl⟩
      rw [hpt]
      unfold closePhase
      rw [if_neg hnet, if_pos hR]
      exact hCB
    · refine ⟨st, f, ?_, hst, hin⟩
      rw [hpt]
      unfold closePhase
      rw [if_neg hnet, if_neg hR]

theorem foldlM_nochunk_progress (pol : ChunkPolicy)
    (hmc : ∀ itm, matchChunk pol itm = .ok (itm, false)) :
    ∀ (toks : List String), wfTokens toks →
    ∀ (st : BState) (f : Frame), st.stack = [f] → st.inTag = [] →
    ∃ st' f', List.foldlM (processToken pol) st toks = .ok st' ∧
      st'.stack = [f'] ∧ st'.inTag = [] := by
  intro toks
  induction toks with
  | nil =>
    intro _ st f hst hin
    exact ⟨st, f, by simp [List.foldlM_nil, pure, Except.pure], hst, hin⟩
  | cons t rest ih =>
    intro hwf st f hst hin
    obtain ⟨st1, f1, h1, h2, h3⟩ :=
      processToken_nochunk_progress pol hmc st t f (hwf t (by simp)) hst hin
    obtain ⟨st', f', h4, h5, h6⟩ := ih (fun x hx => hwf x (by simp [hx])) st1 f1 h2 h3
    refine ⟨st', f', ?_, h5, h6⟩
    rw [foldlM_except_cons, h1]
    exact h4

/-- C7 amended.  The builder contains NO policy validation and raises no
policy error: with `chunk_types` provided but empty and `partial_match`
requested, the match loop iterates over the empty tuple, nothing ever
matches, and every well-formed sentence completes normally with the single
(chunk-free) root frame.  The only policy combination that raises at all is
`chunk_types=None` with `partial_match` (a `TypeError`, not a policy
error). -/
theorem empty_chunk_types_no_error (pol : ChunkPolicy) (toks : List String)
    (hct : pol.chunk_types = some []) (hpm : pol.partial_match = true)
    (hwf : wfTokens toks) :
    ∃ st, runTokens pol toks = .ok st ∧ st.stack.length = 1 := by
  have hmc : ∀ itm, matchChunk pol itm = .ok (itm, false) :=
    fun itm => matchChunk_empty_partial pol itm hct hpm
  obtain ⟨st, f, h1, h2, h3⟩ := foldlM_nochunk_progress pol hmc toks hwf
    (initState pol.top_node) ⟨pol.top_node, []⟩ rfl rfl
  exact ⟨st, h1, by rw [h2]; rfl⟩

theorem empty_chunk_types_no_error_witness :
    ∃ st, runTokens ⟨some [], "S", true, true, false⟩ ["(NP", "dog)"] = .ok st ∧
      st.stack.length = 1 :=
  empty_chunk_types_no_error ⟨some [], "S", true, true, false⟩ ["(NP", "dog)"]
    rfl rfl (by
      intro t ht
      simp at ht
      rcases ht with rfl | rfl
      · exact ⟨by decide, fun _ => by decide⟩
      · exact ⟨by decide, fun _ => by decide⟩)
